import Mathlib

/-!
Verification of the PrismCat reverse proxy core against its specification.

Go strings are byte sequences; we model them (and raw byte payloads) as
`List Nat`, each element a byte value.  Machine integers (`int64`) are
modelled as `Int`.  Each definition below is a shallow embedding of the
correspondingly named Go function.
-/

namespace PrismCat

/-- ASCII string literal to byte list (all literals used here are ASCII,
so code points and UTF-8 bytes coincide). -/
def strL (s : String) : List Nat := s.data.map Char.toNat

/- ------------------------------------------------------------------
   internal/proxy/proxy.go : limitedCapture
   ------------------------------------------------------------------ -/

/-- State of a `limitedCapture` (fields `max`, `buf`, `total`, `truncated`
of the Go struct; the mutex only guards concurrent access and has no
sequential meaning). -/
structure Capture where
  max : Int
  buf : List Nat
  total : Int
  truncated : Bool
deriving DecidableEq, Repr

/-- `newLimitedCapture(max)`. -/
def newLimitedCapture (max : Int) : Capture :=
  { max := max, buf := [], total := 0, truncated := false }

/-- `limitedCapture.Write`, returning the updated state together with the
`(int, error)` pair the Go method returns. -/
def captureWriteRet (c : Capture) (p : List Nat) : Capture × Nat × Option Unit :=
  let c := { c with total := c.total + p.length }
  if c.max ≤ 0 then
    (c, p.length, none)
  else
    let remaining : Int := c.max - c.buf.length
    if remaining ≤ 0 then
      ({ c with truncated := true }, p.length, none)
    else if (p.length : Int) > remaining then
      ({ c with buf := c.buf ++ p.take remaining.toNat, truncated := true }, p.length, none)
    else
      ({ c with buf := c.buf ++ p }, p.length, none)

/-- `limitedCapture.Write`, state part only. -/
def captureWrite (c : Capture) (p : List Nat) : Capture :=
  (captureWriteRet c p).1

/-- Run a sequence of writes against a capture. -/
def captureWriteAll (c : Capture) (ws : List (List Nat)) : Capture :=
  ws.foldl captureWrite c

/-- Sum of the lengths of a list of writes. -/
def sumLen : List (List Nat) → Int
  | [] => 0
  | p :: ws => p.length + sumLen ws

/-- Invariant tying a capture state to its cap `C` and the number `S` of
bytes written so far. -/
def capInv (C S : Int) (c : Capture) : Prop :=
  c.max = C ∧ c.total = S ∧ ((c.buf.length : Int) = min S C) ∧ 0 ≤ S ∧
    (c.truncated = true → C ≤ S) ∧ (c.truncated = false → S ≤ C)

/- ------------------------------------------------------------------
   internal/storage : AsyncRepository
   ------------------------------------------------------------------ -/

/-- Result of `AsyncRepository.SaveLog`: nil error, `ErrAsyncQueueFull`,
`ErrAsyncClosed`, or the early nil-record return. -/
inductive SaveRes where
  | ok
  | queueFull
  | closedErr
  | nilSkip
deriving DecidableEq, Repr

/-- State of an `AsyncRepository`: the bounded channel contents, the closed
flag, the drop counter, the records the single worker has handed to the
inner sink, and the channel capacity. -/
structure AsyncSt where
  queue : List Nat
  closed : Bool
  dropped : Nat
  delivered : List Nat
  capacity : Nat
deriving DecidableEq, Repr

/-- `NewAsyncRepository`: buffer ≤ 0 defaults to 1024; queue empty. -/
def newAsyncSt (buffer : Int) : AsyncSt :=
  { queue := [], closed := false, dropped := 0, delivered := [],
    capacity := if buffer ≤ 0 then 1024 else buffer.toNat }

/-- `AsyncRepository.SaveLog`.  The `select`/`default` non-blocking send
succeeds exactly when the channel buffer has room (records are modelled as
opaque ids; `cloneRequestLog` copies a record by value). -/
def asyncSaveLog (s : AsyncSt) (e : Option Nat) : AsyncSt × SaveRes :=
  match e with
  | none => (s, .nilSkip)
  | some r =>
    if s.closed then (s, .closedErr)
    else if s.queue.length < s.capacity then
      ({ s with queue := s.queue ++ [r] }, .ok)
    else
      ({ s with dropped := s.dropped + 1 }, .queueFull)

/-- One step of the single worker goroutine: take the oldest queued record
and save it to the inner sink. -/
def asyncWorkerStep (s : AsyncSt) : AsyncSt :=
  match s.queue with
  | [] => s
  | r :: rest => { s with queue := rest, delivered := s.delivered ++ [r] }

/-- Issue a batch of saves with no worker progress; returns the final state
and the per-save results. -/
def asyncSaveMany (s : AsyncSt) (es : List Nat) : AsyncSt × List SaveRes :=
  match es with
  | [] => (s, [])
  | e :: rest =>
    let (s', r) := asyncSaveLog s (some e)
    let (s'', rs) := asyncSaveMany s' rest
    (s'', r :: rs)

/- ------------------------------------------------------------------
   internal/storage/detach_repo.go : truncateUTF8 and DetachingRepository
   ------------------------------------------------------------------ -/

/-- UTF-8 continuation byte (`0x80..0xBF`). -/
def isCont (b : Nat) : Bool := decide (128 ≤ b ∧ b ≤ 191)

/-- Accepted range of the first continuation byte after leading byte `b0`
(Go `unicode/utf8` accept ranges, excluding overlong forms, surrogates and
code points above U+10FFFF). -/
def firstContOK (b0 c : Nat) : Bool :=
  if b0 = 224 then decide (160 ≤ c ∧ c ≤ 191)
  else if b0 = 237 then decide (128 ≤ c ∧ c ≤ 159)
  else if b0 = 240 then decide (144 ≤ c ∧ c ≤ 191)
  else if b0 = 244 then decide (128 ≤ c ∧ c ≤ 143)
  else isCont c

/-- Go `utf8.Valid` over a byte sequence. -/
def utf8Valid : List Nat → Bool
  | [] => true
  | b :: rest =>
    if b < 128 then utf8Valid rest
    else if b < 194 then false
    else if b ≤ 223 then
      match rest with
      | c :: r => isCont c && utf8Valid r
      | [] => false
    else if b ≤ 239 then
      match rest with
      | c1 :: c2 :: r => firstContOK b c1 && isCont c2 && utf8Valid r
      | _ => false
    else if b ≤ 244 then
      match rest with
      | c1 :: c2 :: c3 :: r => firstContOK b c1 && isCont c2 && isCont c3 && utf8Valid r
      | _ => false
    else false

/-- The Go loop `for len(cut) > 0 && !utf8.Valid(cut) { cut = cut[:len(cut)-1] }`,
with an explicit fuel bound (the loop shortens the slice each iteration, so
`l.length` steps always suffice). -/
def trimGo : Nat → List Nat → List Nat
  | 0, l => l
  | fuel + 1, l =>
    if l.length = 0 then l
    else if utf8Valid l then l
    else trimGo fuel l.dropLast

def trimToValidUTF8 (l : List Nat) : List Nat := trimGo l.length l

/-- `truncateUTF8` of detach_repo.go. -/
def truncateUTF8 (s : List Nat) (maxBytes : Int) : List Nat :=
  if maxBytes ≤ 0 then []
  else if (s.length : Int) ≤ maxBytes then s
  else trimToValidUTF8 (s.take maxBytes.toNat)

/-- The fields of a `RequestLog` that the detaching stage reads or writes
(bodies are Go strings, i.e. byte sequences; refs are strings). -/
structure DetachRec where
  requestBody : List Nat
  requestBodyRef : List Nat
  responseBody : List Nat
  responseBodyRef : List Nat
deriving DecidableEq, Repr

/-- `DetachingRepository.SaveLog` for a non-nil record with a configured
blob store.  The blob store interface call is modelled by `put`, which
returns `some ref` on success and `none` on failure.  The first component
is the record handed to the inner repository (the record is always saved);
the second lists the payloads put into the blob store. -/
def detachSaveLog (detachOver previewBytes : Int) (put : List Nat → Option (List Nat))
    (e : DetachRec) : DetachRec × List (List Nat) :=
  if detachOver ≤ 0 then (e, [])
  else
    let step1 :=
      if e.requestBodyRef = [] ∧ (e.requestBody.length : Int) > detachOver then
        match put e.requestBody with
        | some ref =>
          ({ e with
              requestBodyRef := ref
              requestBody := truncateUTF8 e.requestBody previewBytes },
            [e.requestBody])
        | none => (e, [e.requestBody])
      else (e, [])
    let e1 := step1.1
    let step2 :=
      if e1.responseBodyRef = [] ∧ (e1.responseBody.length : Int) > detachOver then
        match put e1.responseBody with
        | some ref =>
          ({ e1 with
              responseBodyRef := ref
              responseBody := truncateUTF8 e1.responseBody previewBytes },
            [e1.responseBody])
        | none => (e1, [e1.responseBody])
      else (e1, [])
    (step2.1, step1.2 ++ step2.2)

/- ------------------------------------------------------------------
   internal/config/config.go : ExtractSubdomain
   ------------------------------------------------------------------ -/

/-- `strings.ToLower`, restricted to its ASCII action (byte codes; hosts
and domain names are ASCII). -/
def lowerByte (c : Nat) : Nat := if 65 ≤ c ∧ c ≤ 90 then c + 32 else c

def lowerStr (s : List Nat) : List Nat := s.map lowerByte

/-- ASCII fragment of `unicode.IsSpace`, for `strings.TrimSpace`. -/
def isSpaceByte (c : Nat) : Bool := decide (c = 32 ∨ c = 9 ∨ c = 10 ∨ c = 13 ∨ c = 11 ∨ c = 12)

/-- `strings.TrimSpace`. -/
def trimSpace (s : List Nat) : List Nat :=
  ((s.dropWhile isSpaceByte).reverse.dropWhile isSpaceByte).reverse

/-- `strings.HasPrefix pre l` (arguments: the candidate prefix, the string). -/
def startsWithL : List Nat → List Nat → Bool
  | [], _ => true
  | _ :: _, [] => false
  | p :: ps, x :: xs => p == x && startsWithL ps xs

/-- `strings.HasSuffix`. -/
def endsWithL (suf l : List Nat) : Bool := startsWithL suf.reverse l.reverse

/-- The port-stripping loop of `ExtractSubdomain`, on the reversed host:
scanning from the end, truncate at the first `':'` (58); stop unchanged at
a `']'` (93, IPv6) or at the start. -/
def stripPortRev : List Nat → Option (List Nat)
  | [] => none
  | c :: rest => if c = 58 then some rest else if c = 93 then none else stripPortRev rest

def stripPort (host : List Nat) : List Nat :=
  match stripPortRev host.reverse with
  | some r => r.reverse
  | none => host

/-- Per-domain normalisation inside the `ExtractSubdomain` loop:
`strings.TrimSpace(strings.ToLower(d))` then `strings.TrimPrefix(d, ".")`. -/
def normalizeDomain (d : List Nat) : List Nat :=
  let d1 := trimSpace (lowerStr d)
  if startsWithL [46] d1 then d1.drop 1 else d1

/-- One iteration of the domain loop: `some sub` when the (already
stripped and lower-cased) host matches `"." + d` with a non-empty dot-free
remainder, `none` when this domain is skipped by a `continue`. -/
def subdomainFor (host d : List Nat) : Option (List Nat) :=
  let nd := normalizeDomain d
  if nd = [] then none
  else
    let suf := 46 :: nd
    if host.length ≤ suf.length then none
    else if ¬ endsWithL suf host then none
    else
      let sub := host.take (host.length - suf.length)
      if sub = [] ∨ sub.contains 46 then none else some sub

def extractLoop (host : List Nat) : List (List Nat) → List Nat
  | [] => []
  | d :: ds =>
    match subdomainFor host d with
    | some sub => sub
    | none => extractLoop host ds

/-- `config.ExtractSubdomain`. -/
def ExtractSubdomain (host : List Nat) (proxyDomains : List (List Nat)) : List Nat :=
  let host1 := stripPort host
  let host2 := lowerStr host1
  let domains := if proxyDomains = [] then [strL "localhost"] else proxyDomains
  extractLoop host2 domains

/- ------------------------------------------------------------------
   internal/proxy/proxy.go : ServeHTTP routing prefix (C8)
   ------------------------------------------------------------------ -/

/-- `config.normalizeLower`: `strings.ToLower(strings.TrimSpace(s))`. -/
def normalizeLower (s : List Nat) : List Nat := lowerStr (trimSpace s)

structure Upstream where
  target : List Nat
  timeout : Int
deriving DecidableEq, Repr

/-- `Config.GetUpstream` over a snapshot of the upstream map (modelled as
an association list keyed like the Go map). -/
def getUpstream (ups : List (List Nat × Upstream)) (subdomain : List Nat) : Option Upstream :=
  let s := normalizeLower subdomain
  if s = [] then none
  else (ups.find? (fun e => e.1 == s)).map (fun e => e.2)

/-- A log record reduced to the field C8 talks about. -/
structure MiniRec where
  error : List Nat
deriving DecidableEq, Repr

inductive ServeOutcome where
  | errorResp (status : Nat) (msg : List Nat) (saved : List MiniRec)
  | proceed (subdomain : List Nat) (up : Upstream) (saved : List MiniRec)
deriving DecidableEq, Repr

/-- The routing prefix of `Proxy.ServeHTTP` (up to the initial record
save): resolve the subdomain, `400` when it is empty, look up the
upstream, `502` when unknown; only on success is the initial in-flight
record (empty error) created and saved.  `saved` lists the records passed
to `saveLogSnapshot` before the handler returns or proceeds. -/
def serveRouting (host : List Nat) (proxyDomains : List (List Nat))
    (ups : List (List Nat × Upstream)) : ServeOutcome :=
  let subdomain := ExtractSubdomain host proxyDomains
  if subdomain = [] then
    .errorResp 400 (strL "invalid host: missing subdomain") []
  else
    match getUpstream ups subdomain with
    | none => .errorResp 502 (strL "unknown upstream: " ++ subdomain) []
    | some up => .proceed subdomain up [⟨[]⟩]

def savedOf : ServeOutcome → List MiniRec
  | .errorResp _ _ s => s
  | .proceed _ _ s => s

/- ------------------------------------------------------------------
   internal/proxy/proxy.go : response copy and finalizeAndSaveLog (C9)
   ------------------------------------------------------------------ -/

/-- The record fields written by the response-forwarding step and
`finalizeAndSaveLog`. -/
structure SizeRec where
  requestBodySize : Int
  responseBodySize : Int
  requestBody : List Nat
  responseBody : List Nat
  truncated : Bool
  latency : Int
deriving DecidableEq, Repr

/-- `copyWithOptionalFlush`: stream the upstream body chunkwise through the
multi-writer (client plus capture) with no client write failure; returns
the copied byte count and the capture state. -/
def copyChunks : List (List Nat) → Capture → Int × Capture
  | [], cap => (0, cap)
  | c :: rest, cap =>
    let cap1 := captureWrite cap c
    let nr := copyChunks rest cap1
    (c.length + nr.1, nr.2)

/-- `Proxy.finalizeAndSaveLog`.  The preview derivation `bodyForLog`
(gzip/deflate/brotli decompression plus text detection) is abstracted as
the parameters `bodyForReq`/`bodyForResp`, returning the preview string
and a truncation flag. -/
def finalizeAndSaveLog (bodyForReq bodyForResp : List Nat → List Nat × Bool)
    (reqCap respCap : Option Capture) (now start : Int) (e : SizeRec) : SizeRec :=
  let e1 :=
    match reqCap with
    | some c =>
      let bt := bodyForReq c.buf
      { e with requestBodySize := c.total, requestBody := bt.1,
               truncated := e.truncated || bt.2 }
    | none => e
  let e2 :=
    match respCap with
    | some c =>
      let bt := bodyForResp c.buf
      { e1 with responseBody := bt.1, truncated := e1.truncated || bt.2 }
    | none => e1
  { e2 with
      truncated := e2.truncated
        || (match reqCap with | some c => c.truncated | none => false)
        || (match respCap with | some c => c.truncated | none => false),
      latency := now - start }

/- ------------------------------------------------------------------
   internal/storage : blob refs, SHA-256 and FileBlobStore (C1, C3)
   ------------------------------------------------------------------ -/

/-- Hex digit as accepted by Go `encoding/hex.DecodeString`
(`0-9`, `a-f`, `A-F`). -/
def isHexDigitGo (c : Nat) : Bool :=
  decide ((48 ≤ c ∧ c ≤ 57) ∨ (97 ≤ c ∧ c ≤ 102) ∨ (65 ≤ c ∧ c ≤ 70))

/-- `storage.parseBlobRef`, returning the lower-cased hex digest on
success (the algorithm is always `"sha256"` then). -/
def parseBlobRef (ref : List Nat) : Option (List Nat) :=
  let r1 := trimSpace ref
  let r2 := if startsWithL (strL "blob://") r1 then r1.drop 7 else r1
  if r2 = [] then none
  else
    let parts :=
      match r2.findIdx? (fun c => c == 58) with
      | some i => (lowerStr (trimSpace (r2.take i)), trimSpace (r2.drop (i + 1)))
      | none => (strL "sha256", r2)
    if parts.1 ≠ strL "sha256" then none
    else
      let hexH := lowerStr parts.2
      if hexH.length ≠ 64 then none
      else if hexH.all isHexDigitGo then some hexH else none

/-- A file in the blob directory tree: entry name and modification time. -/
structure BlobFile where
  name : List Nat
  mtime : Int
deriving DecidableEq, Repr

/-- The per-file decision of `GarbageCollect`'s walk: `true` when the file
is kept (temporary prefix, not a 64-char hex digest, referenced, or newer
than the cutoff). -/
def gcKeep (referenced : List (List Nat)) (cutoff : Option Int) (f : BlobFile) : Bool :=
  startsWithL (strL ".tmp-") f.name ||
  !(f.name.length == 64) ||
  !(f.name.all isHexDigitGo) ||
  referenced.contains f.name ||
  (match cutoff with
   | some c => decide (c < f.mtime)
   | none => false)

/-- `FileBlobStore.GarbageCollect`: parse the referenced refs, compute the
cutoff when `minAge > 0` (Go's zero `time.Time` is `none` here), walk the
files, remove the unprotected ones.  Returns (surviving files, deleted
count). -/
def garbageCollect (files : List BlobFile) (referencedRefs : List (List Nat))
    (minAge now : Int) : List BlobFile × Nat :=
  let referenced := referencedRefs.filterMap parseBlobRef
  let cutoff : Option Int := if 0 < minAge then some (now - minAge) else none
  (files.filter (gcKeep referenced cutoff),
   (files.filter (fun f => ! gcKeep referenced cutoff f)).length)

/-- 32-bit word reduction. -/
def w32 (x : Nat) : Nat := x % 4294967296

def rotr32 (n x : Nat) : Nat := w32 ((x >>> n) ||| (x <<< (32 - n)))

def shaCh (x y z : Nat) : Nat := (x &&& y) ^^^ ((x ^^^ 4294967295) &&& z)

def shaMaj (x y z : Nat) : Nat := (x &&& y) ^^^ (x &&& z) ^^^ (y &&& z)

def bigSigma0 (x : Nat) : Nat := rotr32 2 x ^^^ rotr32 13 x ^^^ rotr32 22 x

def bigSigma1 (x : Nat) : Nat := rotr32 6 x ^^^ rotr32 11 x ^^^ rotr32 25 x

def smallSigma0 (x : Nat) : Nat := rotr32 7 x ^^^ rotr32 18 x ^^^ (x >>> 3)

def smallSigma1 (x : Nat) : Nat := rotr32 17 x ^^^ rotr32 19 x ^^^ (x >>> 10)

/-- The SHA-256 round constants (decimal). -/
def sha256K : List Nat :=
  [1116352408, 1899447441, 3049323471, 3921009573, 961987163, 1508970993,
   2453635748, 2870763221, 3624381080, 310598401, 607225278, 1426881987,
   1925078388, 2162078206, 2614888103, 3248222580, 3835390401, 4022224774,
   264347078, 604807628, 770255983, 1249150122, 1555081692, 1996064986,
   2554220882, 2821834349, 2952996808, 3210313671, 3336571891, 3584528711,
   113926993, 338241895, 666307205, 773529912, 1294757372, 1396182291,
   1695183700, 1986661051, 2177026350, 2456956037, 2730485921, 2820302411,
   3259730800, 3345764771, 3516065817, 3600352804, 4094571909, 275423344,
   430227734, 506948616, 659060556, 883997877, 958139571, 1322822218,
   1537002063, 1747873779, 1955562222, 2024104815, 2227730452, 2361852424,
   2428436474, 2756734187, 3204031479, 3329325298]

/-- The SHA-256 initial hash state (decimal). -/
def sha256H0 : List Nat :=
  [1779033703, 3144134277, 1013904242, 2773480762, 1359893119, 2600822924,
   528734635, 1541459225]

/-- `n`-byte big-endian encoding of `x mod 256^n`. -/
def natToBytesBE : Nat → Nat → List Nat
  | 0, _ => []
  | n + 1, x => natToBytesBE n (x / 256) ++ [x % 256]

/-- SHA-256 message padding (`0x80`, zeros, 64-bit big-endian bit length). -/
def sha256Pad (msg : List Nat) : List Nat :=
  let L := msg.length
  let k := (64 - ((L + 9) % 64)) % 64
  msg ++ [128] ++ List.replicate k 0 ++ natToBytesBE 8 (8 * L)

/-- Big-endian 32-bit words from bytes. -/
def bytesToWords : List Nat → List Nat
  | b0 :: b1 :: b2 :: b3 :: rest => (((b0 * 256 + b1) * 256 + b2) * 256 + b3) :: bytesToWords rest
  | _ => []

def chunkGo : Nat → List Nat → List (List Nat)
  | 0, _ => []
  | _ + 1, [] => []
  | fuel + 1, b :: l => (b :: l).take 64 :: chunkGo fuel ((b :: l).drop 64)

/-- Split into 64-byte blocks. -/
def chunks64 (l : List Nat) : List (List Nat) := chunkGo l.length l

/-- Message-schedule extension (48 steps from the 16 block words). -/
def extendW : Nat → List Nat → List Nat
  | 0, w => w
  | n + 1, w =>
    let t := w.length
    let wt := w32 (smallSigma1 (w.getD (t - 2) 0) + w.getD (t - 7) 0 +
                   smallSigma0 (w.getD (t - 15) 0) + w.getD (t - 16) 0)
    extendW n (w ++ [wt])

/-- The eight working variables of the SHA-256 compression loop. -/
structure ShaState where
  a : Nat
  b : Nat
  c : Nat
  d : Nat
  e : Nat
  f : Nat
  g : Nat
  h : Nat

/-- One round of the compression function. -/
def shaRound (st : ShaState) (kw : Nat × Nat) : ShaState :=
  let t1 := w32 (st.h + bigSigma1 st.e + shaCh st.e st.f st.g + kw.1 + kw.2)
  let t2 := w32 (bigSigma0 st.a + shaMaj st.a st.b st.c)
  { a := w32 (t1 + t2), b := st.a, c := st.b, d := st.c,
    e := w32 (st.d + t1), f := st.e, g := st.f, h := st.g }

/-- Compress one 64-byte block into the running hash. -/
def processBlock (hs : List Nat) (block : List Nat) : List Nat :=
  let ws := extendW 48 (bytesToWords block)
  let st0 : ShaState :=
    { a := hs.getD 0 0, b := hs.getD 1 0, c := hs.getD 2 0, d := hs.getD 3 0,
      e := hs.getD 4 0, f := hs.getD 5 0, g := hs.getD 6 0, h := hs.getD 7 0 }
  let st := (sha256K.zip ws).foldl shaRound st0
  [w32 (hs.getD 0 0 + st.a), w32 (hs.getD 1 0 + st.b), w32 (hs.getD 2 0 + st.c),
   w32 (hs.getD 3 0 + st.d), w32 (hs.getD 4 0 + st.e), w32 (hs.getD 5 0 + st.f),
   w32 (hs.getD 6 0 + st.g), w32 (hs.getD 7 0 + st.h)]

/-- `crypto/sha256.Sum256` as eight 32-bit words. -/
def sha256Words (msg : List Nat) : List Nat :=
  (chunks64 (sha256Pad msg)).foldl processBlock sha256H0

/-- Lower-case hex digit byte (`encoding/hex` alphabet). -/
def hexDigitByte (n : Nat) : Nat := if n < 10 then 48 + n else 87 + n

/-- `n` hex digits of `x mod 16^n`, big-endian. -/
def natToHexBE : Nat → Nat → List Nat
  | 0, _ => []
  | n + 1, x => natToHexBE n (x / 16) ++ [hexDigitByte (x % 16)]

/-- `hex.EncodeToString(sha256.Sum256(msg))`. -/
def digestHex (msg : List Nat) : List Nat :=
  ((sha256Words msg).map (natToHexBE 8)).flatten

/-- `storage.newSHA256Ref` applied to the digest of `data`. -/
def blobRefOf (data : List Nat) : List Nat := strL "sha256:" ++ digestHex data

/-- The blob directory contents: path (relative to the base directory)
mapped to file bytes. -/
structure BlobFs where
  entries : List (List Nat × List Nat)
deriving DecidableEq, Repr

def fsLookup (fs : BlobFs) (path : List Nat) : Option (List Nat) :=
  (fs.entries.find? (fun e => e.1 == path)).map (fun e => e.2)

/-- `FileBlobStore.pathFor` (the two-hex-char prefix directory and the
full digest, relative to the base directory; 47 is the path separator). -/
def pathFor (hexHash : List Nat) : List Nat := hexHash.take 2 ++ 47 :: hexHash

/-- `FileBlobStore.Put`: hash the data, return the ref unchanged when the
object already exists, otherwise write a temporary file and atomically
rename it to the final path (in this sequential model the rename always
succeeds). -/
def blobPut (fs : BlobFs) (data : List Nat) : List Nat × BlobFs :=
  let ref := blobRefOf data
  let hexHash := (parseBlobRef ref).getD []
  let finalPath := pathFor hexHash
  match fsLookup fs finalPath with
  | some _ => (ref, fs)
  | none => (ref, ⟨(finalPath, data) :: fs.entries⟩)

/-- The 33-byte big-endian encoding used for the pigeonhole argument. -/
def encode33 (x : Nat) : List Nat := natToBytesBE 33 x

/-- Base-2^32 value of a word list (little-endian). -/
def wordsToNat : List Nat → Nat
  | [] => 0
  | w :: ws => w + 4294967296 * wordsToNat ws

/-- The digest of the 33-byte encoding, as an element of `Fin (2^256)`. -/
def shaCollisionMap (a : Fin (2 ^ 256 + 1)) : Fin (2 ^ 256) :=
  ⟨wordsToNat (sha256Words (encode33 a.val)) % 2 ^ 256, Nat.mod_lt _ (by positivity)⟩

/- ------------------------------------------------------------------
   Theorems
   ------------------------------------------------------------------ -/

theorem capInv_init (C : Int) (hC : 0 < C) : capInv C 0 (newLimitedCapture C) := by
  refine ⟨rfl, rfl, ?_, le_refl 0, ?_, ?_⟩
  · simp [newLimitedCapture]
    omega
  · intro h
    simp [newLimitedCapture] at h
  · intro _
    omega

theorem capInv_step (C S : Int) (hC : 0 < C) (c : Capture) (p : List Nat)
    (h : capInv C S c) : capInv C (S + p.length) (captureWrite c p) := by
  obtain ⟨hmax, htot, hbuf, hS, htr, hnt⟩ := h
  unfold captureWrite captureWriteRet
  simp only [hmax]
  have hpn : (0 : Int) ≤ (p.length : Int) := by positivity
  split_ifs with h1 h2 h3
  · omega
  · -- remaining ≤ 0 : buffer full already
    refine ⟨rfl, by simp [htot], ?_, by omega, ?_, ?_⟩
    · simp only
      omega
    · intro _
      omega
    · intro hfalse
      cases hfalse
  · -- p longer than remaining : fill up and truncate
    have hrem : (0 : Int) < C - (c.buf.length : Int) := by omega
    refine ⟨rfl, by simp [htot], ?_, by omega, ?_, ?_⟩
    · have htk : ((p.take (C - (c.buf.length : Int)).toNat).length : Int)
          = C - (c.buf.length : Int) := by
        rw [List.length_take]
        omega
      simp only [List.length_append]
      push_cast
      omega
    · intro _
      omega
    · intro hfalse
      cases hfalse
  · -- p fits entirely
    refine ⟨rfl, by simp [htot], ?_, by omega, ?_, ?_⟩
    · simp only [List.length_append]
      push_cast
      omega
    · intro ht
      have := htr ht
      omega
    · intro ht
      have := hnt ht
      omega

theorem capInv_strict_step (C S : Int) (hC : 0 < C) (c : Capture) (p : List Nat)
    (hp : p ≠ []) (h : capInv C S c) (hstrict : c.truncated = true → C < S) :
    (captureWrite c p).truncated = true → C < S + p.length := by
  obtain ⟨hmax, htot, hbuf, hS, htr, hnt⟩ := h
  have hpn : (0 : Int) < (p.length : Int) := by
    have : 0 < p.length := List.length_pos.mpr hp
    exact_mod_cast this
  unfold captureWrite captureWriteRet
  simp only [hmax]
  split_ifs with h1 h2 h3
  · omega
  · intro _
    omega
  · intro _
    omega
  · intro ht
    simp only at ht
    have := hstrict ht
    omega

theorem capInv_all (C : Int) (hC : 0 < C) (ws : List (List Nat)) (c : Capture) (S : Int)
    (h : capInv C S c) : capInv C (S + sumLen ws) (captureWriteAll c ws) := by
  induction ws generalizing c S with
  | nil => simpa [captureWriteAll, sumLen] using h
  | cons p ws ih =>
    have hstep := capInv_step C S hC c p h
    have := ih (captureWrite c p) (S + p.length) hstep
    simpa [captureWriteAll, sumLen, add_assoc] using this

theorem capInv_all_strict (C : Int) (hC : 0 < C) (ws : List (List Nat))
    (hws : ∀ p ∈ ws, p ≠ []) (c : Capture) (S : Int)
    (h : capInv C S c) (hstrict : c.truncated = true → C < S) :
    (captureWriteAll c ws).truncated = true → C < S + sumLen ws := by
  induction ws generalizing c S with
  | nil => simpa [captureWriteAll, sumLen] using hstrict
  | cons p ws ih =>
    have hp : p ≠ [] := hws p (List.mem_cons_self p ws)
    have hstep := capInv_step C S hC c p h
    have hstrict' := capInv_strict_step C S hC c p hp h hstrict
    have := ih (fun q hq => hws q (List.mem_cons_of_mem p hq))
      (captureWrite c p) (S + p.length) hstep hstrict'
    simpa [captureWriteAll, sumLen, add_assoc] using this

/-- C2 (amended): for any write sequence against a bounded capture with cap
`C > 0`, the buffer never exceeds `C` bytes, `Total()` is the sum of all
write lengths, `Total() > C` implies `Truncated()`, `Truncated()` implies
`Total() ≥ C`, and when every write is non-empty `Truncated()` holds exactly
when `Total() > C`. -/
theorem bounded_capture_invariant (ws : List (List Nat)) (C : Int) (hC : 0 < C) :
    ((captureWriteAll (newLimitedCapture C) ws).buf.length : Int) ≤ C ∧
    (captureWriteAll (newLimitedCapture C) ws).total = sumLen ws ∧
    (C < sumLen ws → (captureWriteAll (newLimitedCapture C) ws).truncated = true) ∧
    ((captureWriteAll (newLimitedCapture C) ws).truncated = true → C ≤ sumLen ws) ∧
    ((∀ p ∈ ws, p ≠ []) →
      ((captureWriteAll (newLimitedCapture C) ws).truncated = true ↔ C < sumLen ws)) := by
  have h0 := capInv_init C hC
  have h := capInv_all C hC ws (newLimitedCapture C) 0 h0
  rw [zero_add] at h
  obtain ⟨hmax, htot, hbuf, hS, htr, hnt⟩ := h
  refine ⟨le_trans (le_of_eq hbuf) (min_le_right _ _), htot, ?_, fun ht => htr ht, ?_⟩
  · intro hlt
    by_contra hne
    have hfalse : (captureWriteAll (newLimitedCapture C) ws).truncated = false := by
      cases hx : (captureWriteAll (newLimitedCapture C) ws).truncated
      · rfl
      · exact absurd hx hne
    have := hnt hfalse
    omega
  · intro hws
    constructor
    · intro ht
      have hstrict : (newLimitedCapture C).truncated = true → C < 0 := by
        intro hx
        simp [newLimitedCapture] at hx
      have := capInv_all_strict C hC ws hws (newLimitedCapture C) 0 h0 hstrict ht
      omega
    · intro hlt
      by_contra hne
      have hfalse : (captureWriteAll (newLimitedCapture C) ws).truncated = false := by
        cases hx : (captureWriteAll (newLimitedCapture C) ws).truncated
        · rfl
        · exact absurd hx hne
      have := hnt hfalse
      omega

/-- C2 witness: cap 2, writes of 1 and 3 bytes; the capture keeps at most 2
bytes, totals 4, and reports truncation. -/
theorem bounded_capture_invariant_witness :
    ((captureWriteAll (newLimitedCapture 2) [[10], [11, 12, 13]]).buf.length : Int) ≤ 2 ∧
    (captureWriteAll (newLimitedCapture 2) [[10], [11, 12, 13]]).total
      = sumLen [[10], [11, 12, 13]] ∧
    (captureWriteAll (newLimitedCapture 2) [[10], [11, 12, 13]]).truncated = true := by
  have h := bounded_capture_invariant [[10], [11, 12, 13]] 2 (by decide)
  refine ⟨h.1, h.2.1, ?_⟩
  exact h.2.2.1 (by decide)

/-- C2 counterexample: with cap `C = 1`, writing one byte and then an empty
slice leaves `Total() = 1 = C` yet sets `Truncated()`, so
`Truncated() ⇔ Total() > C` fails as stated. -/
theorem bounded_capture_claim_counterexample :
    (captureWriteAll (newLimitedCapture 1) [[0], []]).truncated = true ∧
    (captureWriteAll (newLimitedCapture 1) [[0], []]).total = 1 ∧
    ¬ (1 : Int) < (captureWriteAll (newLimitedCapture 1) [[0], []]).total := by
  refine ⟨by decide, by decide, by decide⟩

/-- C10: `limitedCapture.Write` is total: for every capture state (any cap,
including caps ≤ 0) and every input slice it returns the full input length
and a nil error, so a tee through the capture can never observe a short
write or a write error. -/
theorem capture_write_never_fails (c : Capture) (p : List Nat) :
    (captureWriteRet c p).2.1 = p.length ∧ (captureWriteRet c p).2.2 = none := by
  dsimp only [captureWriteRet]
  split_ifs <;> exact ⟨rfl, rfl⟩

theorem asyncSaveMany_closed_form (es q : List Nat) (d : Nat) (del : List Nat) (k : Nat)
    (hq : q.length ≤ k) :
    asyncSaveMany ⟨q, false, d, del, k⟩ es
      = (⟨q ++ es.take (k - q.length), false, d + (es.length - (k - q.length)), del, k⟩,
         List.replicate (min es.length (k - q.length)) SaveRes.ok
           ++ List.replicate (es.length - (k - q.length)) SaveRes.queueFull) := by
  induction es generalizing q d with
  | nil =>
    simp [asyncSaveMany]
  | cons e rest ih =>
    by_cases hlt : q.length < k
    · have hstep : asyncSaveLog ⟨q, false, d, del, k⟩ (some e)
          = (⟨q ++ [e], false, d, del, k⟩, .ok) := by
        simp [asyncSaveLog, hlt]
      have hq' : (q ++ [e]).length ≤ k := by
        simp only [List.length_append, List.length_cons, List.length_nil]
        omega
      have hrec := ih (q ++ [e]) d hq'
      simp only [asyncSaveMany, hstep, hrec, List.length_append, List.length_cons,
        List.length_nil, Nat.zero_add, Nat.add_zero]
      have hn : k - q.length = (k - (q.length + 1)) + 1 := by omega
      rw [hn]
      simp only [List.take_succ_cons, Nat.add_min_add_right, Nat.add_sub_add_right,
        List.replicate_succ, List.append_assoc, List.singleton_append, List.cons_append,
        List.nil_append]
    · have hk0 : k - q.length = 0 := by omega
      have hstep : asyncSaveLog ⟨q, false, d, del, k⟩ (some e)
          = (⟨q, false, d + 1, del, k⟩, .queueFull) := by
        simp [asyncSaveLog, hlt]
      have hrec := ih q (d + 1) hq
      simp only [asyncSaveMany, hstep, hrec, hk0, List.take_zero, List.append_nil,
        Nat.sub_zero, Nat.min_zero, List.replicate_zero, List.nil_append,
        List.length_cons, List.replicate_succ]
      refine Prod.ext ?_ rfl
      simp only [AsyncSt.mk.injEq, eq_self_iff_true, and_true, true_and]
      omega

/-- C4: on a full channel, `SaveLog` returns `ErrAsyncQueueFull` without
enqueueing (queue, delivered records unchanged) and bumps the drop counter
by one; and from an empty queue of capacity `k`, issuing `m > k` saves with
no worker progress accepts at most `k` of them, returns `QueueFull` for the
other `m − k`, increments the drop counter by exactly `m − k`, and delivers
nothing to the inner sink. -/
theorem async_queue_full_drop (s : AsyncSt) (r : Nat) (es : List Nat) (d : Nat) (k : Nat)
    (hs : s.closed = false) (hfull : ¬ s.queue.length < s.capacity)
    (hk : 0 < k) (hm : k < es.length) :
    asyncSaveLog s (some r)
      = ({ s with dropped := s.dropped + 1 }, SaveRes.queueFull) ∧
    ((asyncSaveMany ⟨[], false, d, [], k⟩ es).2.countP (· == SaveRes.ok) ≤ k ∧
     (asyncSaveMany ⟨[], false, d, [], k⟩ es).2.countP (· == SaveRes.queueFull)
       = es.length - k ∧
     (asyncSaveMany ⟨[], false, d, [], k⟩ es).1.dropped = d + (es.length - k) ∧
     (asyncSaveMany ⟨[], false, d, [], k⟩ es).1.delivered = []) := by
  constructor
  · simp [asyncSaveLog, hs, hfull]
  · have h := asyncSaveMany_closed_form es [] d [] k (by simp)
    simp only [List.length_nil, Nat.sub_zero] at h
    rw [h]
    simp [List.countP_append, List.countP_replicate]
    try omega

/-- C4 witness: capacity 2, five saves back to back: two accepted, three
dropped with `QueueFull`, drop counter up by three, nothing delivered. -/
theorem async_queue_full_drop_witness :
    asyncSaveLog ⟨[1, 2], false, 0, [], 2⟩ (some 9)
      = (⟨[1, 2], false, 1, [], 2⟩, SaveRes.queueFull) ∧
    ((asyncSaveMany ⟨[], false, 0, [], 2⟩ [1, 2, 3, 4, 5]).2.countP (· == SaveRes.ok) ≤ 2 ∧
     (asyncSaveMany ⟨[], false, 0, [], 2⟩ [1, 2, 3, 4, 5]).2.countP
        (· == SaveRes.queueFull) = 3 ∧
     (asyncSaveMany ⟨[], false, 0, [], 2⟩ [1, 2, 3, 4, 5]).1.dropped = 0 + 3 ∧
     (asyncSaveMany ⟨[], false, 0, [], 2⟩ [1, 2, 3, 4, 5]).1.delivered = []) := by
  have h := async_queue_full_drop ⟨[1, 2], false, 0, [], 2⟩ 9 [1, 2, 3, 4, 5] 0 2
    (by decide) (by decide) (by decide) (by decide)
  exact h

theorem trimGo_sound (fuel : Nat) (l : List Nat) :
    trimGo fuel l <+: l ∧ (l.length ≤ fuel → utf8Valid (trimGo fuel l) = true) := by
  induction fuel generalizing l with
  | zero =>
    refine ⟨List.prefix_refl l, fun h => ?_⟩
    have : l = [] := List.length_eq_zero.mp (Nat.le_zero.mp h)
    rw [this, trimGo]
    rfl
  | succ fuel ih =>
    rw [trimGo]
    split_ifs with h1 h2
    · refine ⟨List.prefix_refl l, fun _ => ?_⟩
      have : l = [] := List.length_eq_zero.mp h1
      rw [this]
      rfl
    · exact ⟨List.prefix_refl l, fun _ => h2⟩
    · have hd := ih l.dropLast
      refine ⟨hd.1.trans (List.dropLast_prefix l), fun h => ?_⟩
      refine hd.2 ?_
      simp only [List.length_dropLast]
      omega

theorem trimToValidUTF8_sound (l : List Nat) :
    trimToValidUTF8 l <+: l ∧ utf8Valid (trimToValidUTF8 l) = true := by
  have h := trimGo_sound l.length l
  exact ⟨h.1, h.2 (Nat.le_refl _)⟩

/-- C6: for every valid UTF-8 byte string `s` and byte cap `n`,
`truncateUTF8 s n` is a valid UTF-8 prefix of `s` of at most `n` bytes
(never splitting a multi-byte code point), and for `n ≤ 0` it returns the
empty string. -/
theorem truncate_utf8_sound (s : List Nat) (n : Int) (hs : utf8Valid s = true) :
    truncateUTF8 s n <+: s ∧
    ((truncateUTF8 s n).length : Int) ≤ max n 0 ∧
    utf8Valid (truncateUTF8 s n) = true ∧
    (n ≤ 0 → truncateUTF8 s n = []) := by
  unfold truncateUTF8
  split_ifs with h1 h2
  · refine ⟨List.nil_prefix, ?_, rfl, fun _ => rfl⟩
    simpa using le_max_right n 0
  · refine ⟨List.prefix_refl s, by omega, hs, fun h => absurd h h1⟩
  · have htrim := trimToValidUTF8_sound (s.take n.toNat)
    refine ⟨htrim.1.trans (List.take_prefix _ s), ?_, htrim.2, fun h => absurd h h1⟩
    have hlen := htrim.1.length_le
    simp only [List.length_take] at hlen
    omega

/-- C6 witness: the UTF-8 bytes of a four-ideograph string truncated at
cap 4 give the first three-byte code point only. -/
theorem truncate_utf8_sound_witness :
    truncateUTF8 [228, 189, 160, 229, 165, 189, 228, 184, 150, 231, 149, 140] 4
      <+: [228, 189, 160, 229, 165, 189, 228, 184, 150, 231, 149, 140] ∧
    truncateUTF8 [228, 189, 160, 229, 165, 189, 228, 184, 150, 231, 149, 140] 4
      = [228, 189, 160] := by
  have h := truncate_utf8_sound [228, 189, 160, 229, 165, 189, 228, 184, 150, 231, 149, 140] 4
    (by decide)
  exact ⟨h.1, by decide⟩

/-- C7: with detach threshold ≤ 0 the record passes through unchanged; with
threshold > 0, for each body facet independently: if the inline body exceeds
the threshold and no ref is present, the full body bytes are put into the
blob store and, on success, the ref is stamped and the inline body replaced
by the preview-cap truncation, while on failure body and ref are left
intact; facets not meeting the condition are untouched; in every case the
record is saved to the inner sink (the first component below). -/
theorem detach_save_spec (dO pB : Int) (put : List Nat → Option (List Nat)) (e : DetachRec) :
    (dO ≤ 0 → detachSaveLog dO pB put e = (e, [])) ∧
    (0 < dO →
      ((e.requestBodyRef = [] ∧ (e.requestBody.length : Int) > dO →
          e.requestBody ∈ (detachSaveLog dO pB put e).2 ∧
          (∀ ref, put e.requestBody = some ref →
            (detachSaveLog dO pB put e).1.requestBodyRef = ref ∧
            (detachSaveLog dO pB put e).1.requestBody = truncateUTF8 e.requestBody pB) ∧
          (put e.requestBody = none →
            (detachSaveLog dO pB put e).1.requestBody = e.requestBody ∧
            (detachSaveLog dO pB put e).1.requestBodyRef = [])) ∧
       (¬ (e.requestBodyRef = [] ∧ (e.requestBody.length : Int) > dO) →
          (detachSaveLog dO pB put e).1.requestBody = e.requestBody ∧
          (detachSaveLog dO pB put e).1.requestBodyRef = e.requestBodyRef) ∧
       (e.responseBodyRef = [] ∧ (e.responseBody.length : Int) > dO →
          e.responseBody ∈ (detachSaveLog dO pB put e).2 ∧
          (∀ ref, put e.responseBody = some ref →
            (detachSaveLog dO pB put e).1.responseBodyRef = ref ∧
            (detachSaveLog dO pB put e).1.responseBody = truncateUTF8 e.responseBody pB) ∧
          (put e.responseBody = none →
            (detachSaveLog dO pB put e).1.responseBody = e.responseBody ∧
            (detachSaveLog dO pB put e).1.responseBodyRef = [])) ∧
       (¬ (e.responseBodyRef = [] ∧ (e.responseBody.length : Int) > dO) →
          (detachSaveLog dO pB put e).1.responseBody = e.responseBody ∧
          (detachSaveLog dO pB put e).1.responseBodyRef = e.responseBodyRef))) := by
  by_cases hle : dO ≤ 0
  · refine ⟨fun _ => by simp [detachSaveLog, hle], fun hgt => absurd hgt (by omega)⟩
  · refine ⟨fun h => absurd h hle, fun _ => ?_⟩
    have hreq : ∀ h : Prop, True := fun _ => trivial
    by_cases hc1 : e.requestBodyRef = [] ∧ (e.requestBody.length : Int) > dO
    · rcases hput1 : put e.requestBody with _ | ref1
      · -- request put fails: record unchanged so far
        by_cases hc2 : e.responseBodyRef = [] ∧ (e.responseBody.length : Int) > dO
        · rcases hput2 : put e.responseBody with _ | ref2
          · simp [detachSaveLog, hle, hc1, hc2, hput1, hput2]
          · simp [detachSaveLog, hle, hc1, hc2, hput1, hput2]
        · simp [detachSaveLog, hle, hc1, hc2, hput1]
      · -- request put succeeds: request fields rewritten, response fields intact
        by_cases hc2 : e.responseBodyRef = [] ∧ (e.responseBody.length : Int) > dO
        · rcases hput2 : put e.responseBody with _ | ref2
          · simp [detachSaveLog, hle, hc1, hc2, hput1, hput2]
          · simp [detachSaveLog, hle, hc1, hc2, hput1, hput2]
        · simp [detachSaveLog, hle, hc1, hc2, hput1]
    · by_cases hc2 : e.responseBodyRef = [] ∧ (e.responseBody.length : Int) > dO
      · rcases hput2 : put e.responseBody with _ | ref2
        · simp [detachSaveLog, hle, hc1, hc2, hput2]
        · simp [detachSaveLog, hle, hc1, hc2, hput2]
      · simp [detachSaveLog, hle, hc1, hc2]

/-- C7 witness: threshold 8, preview 4, a 10-byte request body with no ref
and a 4-byte response body: the request body is put and replaced by its
4-byte preview with the ref stamped; the response facet is untouched. -/
theorem detach_save_spec_witness :
    (detachSaveLog 8 4 (fun _ => some (strL "sha256:ref"))
        ⟨strL "0123456789", [], strL "abcd", []⟩).1
      = ⟨strL "0123", strL "sha256:ref", strL "abcd", []⟩ ∧
    strL "0123456789" ∈ (detachSaveLog 8 4 (fun _ => some (strL "sha256:ref"))
        ⟨strL "0123456789", [], strL "abcd", []⟩).2 := by
  have h := detach_save_spec 8 4 (fun _ => some (strL "sha256:ref"))
    ⟨strL "0123456789", [], strL "abcd", []⟩
  have h2 := (h.2 (by decide)).1 (by constructor <;> decide)
  refine ⟨?_, h2.1⟩
  have href := (h2.2.1 (strL "sha256:ref") rfl)
  have hresp := ((h.2 (by decide)).2.2.2) (by
    intro hx
    have := hx.2
    revert this
    decide)
  have hreqbody : truncateUTF8 (strL "0123456789") 4 = strL "0123" := by decide
  cases hd : (detachSaveLog 8 4 (fun _ => some (strL "sha256:ref"))
      ⟨strL "0123456789", [], strL "abcd", []⟩).1
  rw [hd] at href hresp
  simp only at href hresp
  rw [hreqbody] at href
  simp [href.1, href.2, hresp.1, hresp.2]

theorem startsWithL_iff (p l : List Nat) : startsWithL p l = true ↔ p <+: l := by
  induction p generalizing l with
  | nil =>
    simp [startsWithL, List.nil_prefix]
  | cons a p ih =>
    cases l with
    | nil =>
      simp [startsWithL]
    | cons b l =>
      simp [startsWithL, ih, List.cons_prefix_cons, Nat.beq_eq, and_comm]

theorem endsWithL_iff (suf l : List Nat) : endsWithL suf l = true ↔ suf <:+ l := by
  rw [endsWithL, startsWithL_iff, List.reverse_prefix]

theorem subdomainFor_eq_some (host d sub : List Nat) :
    subdomainFor host d = some sub ↔
      normalizeDomain d ≠ [] ∧ sub ≠ [] ∧ 46 ∉ sub ∧
      host = sub ++ 46 :: normalizeDomain d := by
  constructor
  · intro h
    simp only [subdomainFor] at h
    split_ifs at h with h1 h2 h3 h4
    have hsuf : (46 :: normalizeDomain d) <:+ host := by
      rw [← endsWithL_iff]
      exact h3
    obtain ⟨t, ht⟩ := hsuf
    have hlen : host.length = t.length + (46 :: normalizeDomain d).length := by
      rw [← ht, List.length_append]
    have htake : host.take (host.length - (46 :: normalizeDomain d).length) = t := by
      rw [← ht]
      have : host.length - (46 :: normalizeDomain d).length = t.length := by omega
      rw [← ht] at this
      rw [this, List.take_left]
    rw [htake] at h h4
    have hsub : t = sub := by
      cases h
      rfl
    subst hsub
    push_neg at h4
    refine ⟨h1, h4.1, ?_, ht.symm⟩
    intro hmem
    have : t.contains 46 = true := List.elem_iff.mpr hmem
    rw [this] at h4
    exact absurd rfl h4.2
  · rintro ⟨hnd, hsub, hdot, hhost⟩
    have hlen : host.length = sub.length + (normalizeDomain d).length + 1 := by
      rw [hhost, List.length_append, List.length_cons]
      omega
    have hsublen : 0 < sub.length := List.length_pos.mpr hsub
    unfold subdomainFor
    rw [if_neg hnd]
    have hgt : ¬ host.length ≤ (46 :: normalizeDomain d).length := by
      simp only [List.length_cons]
      omega
    rw [if_neg hgt]
    have hends : endsWithL (46 :: normalizeDomain d) host = true := by
      rw [endsWithL_iff, hhost]
      exact List.suffix_append sub (46 :: normalizeDomain d)
    rw [if_neg (by rw [hends]; exact fun h => h rfl)]
    have htake : host.take (host.length - (46 :: normalizeDomain d).length) = sub := by
      rw [hhost]
      have : host.length - (46 :: normalizeDomain d).length = sub.length := by
        simp only [List.length_cons]
        omega
      rw [hhost] at this
      rw [this, List.take_left]
    rw [htake]
    have hnc : sub.contains 46 = false := by
      cases hx : sub.contains 46
      · rfl
      · exact absurd (List.elem_iff.mp hx) hdot
    have hcond : ¬ (sub = [] ∨ sub.contains 46 = true) := by
      push_neg
      refine ⟨hsub, ?_⟩
      rw [hnc]
      exact Bool.false_ne_true
    rw [if_neg hcond]

theorem single_label_unique_aux (host p q x y : List Nat)
    (hq : 46 ∉ q) (hpq : p <+: q)
    (hhost : host = p ++ 46 :: x) (hhost' : host = q ++ 46 :: y) : p = q := by
  obtain ⟨r, hr⟩ := hpq
  cases r with
  | nil => simpa using hr
  | cons c r =>
    exfalso
    rw [← hr, List.append_assoc] at hhost'
    rw [hhost] at hhost'
    have := List.append_cancel_left hhost'
    have hc : c = 46 := by
      cases this
      rfl
    apply hq
    rw [← hr, hc]
    exact List.mem_append_right p (List.mem_cons_self 46 r)

theorem single_label_unique (host p q x y : List Nat)
    (hp : 46 ∉ p) (hq : 46 ∉ q)
    (hhost : host = p ++ 46 :: x) (hhost' : host = q ++ 46 :: y) : p = q := by
  have hppre : p <+: host := by
    rw [hhost]
    exact List.prefix_append p (46 :: x)
  have hqpre : q <+: host := by
    rw [hhost']
    exact List.prefix_append q (46 :: y)
  rcases List.prefix_or_prefix_of_prefix hppre hqpre with hpq | hqp
  · exact single_label_unique_aux host p q x y hq hpq hhost hhost'
  · exact (single_label_unique_aux host q p y x hp hqp hhost' hhost).symm

theorem extractLoop_finds (host D p : List Nat) (ds : List (List Nat))
    (hD : D ∈ ds)
    (hnd : normalizeDomain D ≠ [])
    (hmatch : host = p ++ 46 :: normalizeDomain D)
    (hp : p ≠ []) (hdot : 46 ∉ p) :
    extractLoop host ds = p := by
  induction ds with
  | nil => cases hD
  | cons d ds ih =>
    rcases hsf : subdomainFor host d with _ | q
    · rw [extractLoop, hsf]
      rcases List.mem_cons.mp hD with hDd | hDds
      · exfalso
        rw [← hDd] at hsf
        have : subdomainFor host D = some p :=
          (subdomainFor_eq_some host D p).mpr ⟨hnd, hp, hdot, hmatch⟩
        rw [this] at hsf
        cases hsf
      · exact ih hDds
    · rw [extractLoop, hsf]
      have hc := (subdomainFor_eq_some host d q).mp hsf
      exact single_label_unique host q p (normalizeDomain d) (normalizeDomain D)
        hc.2.2.1 hdot hc.2.2.2 hmatch

theorem extractLoop_empty (host : List Nat) (ds : List (List Nat))
    (h : ∀ d ∈ ds, subdomainFor host d = none) : extractLoop host ds = [] := by
  induction ds with
  | nil => rfl
  | cons d ds ih =>
    rw [extractLoop, h d (List.mem_cons_self d ds)]
    exact ih fun x hx => h x (List.mem_cons_of_mem d hx)

theorem lowerByte_idem (c : Nat) : lowerByte (lowerByte c) = lowerByte c := by
  unfold lowerByte
  split_ifs <;> omega

theorem lowerStr_idem (s : List Nat) : lowerStr (lowerStr s) = lowerStr s := by
  simp only [lowerStr, List.map_map, Function.comp]
  exact List.map_congr_left fun c _ => lowerByte_idem c

theorem lowerByte_eq_58 (c : Nat) : lowerByte c = 58 ↔ c = 58 := by
  unfold lowerByte
  split_ifs <;> omega

theorem lowerByte_eq_93 (c : Nat) : lowerByte c = 93 ↔ c = 93 := by
  unfold lowerByte
  split_ifs <;> omega

theorem stripPortRev_map_lower (l : List Nat) :
    stripPortRev (l.map lowerByte) = (stripPortRev l).map (List.map lowerByte) := by
  induction l with
  | nil => rfl
  | cons c rest ih =>
    simp only [List.map_cons, stripPortRev]
    by_cases h58 : c = 58
    · rw [if_pos ((lowerByte_eq_58 c).mpr h58), if_pos h58]
      rfl
    · rw [if_neg (fun hx => h58 ((lowerByte_eq_58 c).mp hx)), if_neg h58]
      by_cases h93 : c = 93
      · rw [if_pos ((lowerByte_eq_93 c).mpr h93), if_pos h93]
        rfl
      · rw [if_neg (fun hx => h93 ((lowerByte_eq_93 c).mp hx)), if_neg h93]
        exact ih

theorem stripPort_map_lower (host : List Nat) :
    stripPort (lowerStr host) = lowerStr (stripPort host) := by
  unfold stripPort
  have hrev : (lowerStr host).reverse = host.reverse.map lowerByte := by
    unfold lowerStr
    exact (List.map_reverse lowerByte host).symm
  rw [hrev, stripPortRev_map_lower]
  cases h : stripPortRev host.reverse with
  | none => rfl
  | some r =>
    show (r.map lowerByte).reverse = lowerStr r.reverse
    unfold lowerStr
    exact (List.map_reverse lowerByte r).symm

theorem stripPortRev_no58 (l : List Nat) (h : 58 ∉ l) : stripPortRev l = none := by
  induction l with
  | nil => rfl
  | cons c rest ih =>
    rw [stripPortRev]
    rw [if_neg (fun hc => h (by rw [← hc]; exact List.mem_cons_self c rest))]
    split_ifs with h93
    · rfl
    · exact ih fun hm => h (List.mem_cons_of_mem c hm)

theorem stripPortRev_finds (l1 l2 : List Nat) (h58 : 58 ∉ l1) (h93 : 93 ∉ l1) :
    stripPortRev (l1 ++ 58 :: l2) = some l2 := by
  induction l1 with
  | nil =>
    simp [stripPortRev]
  | cons c rest ih =>
    rw [List.cons_append, stripPortRev]
    rw [if_neg (fun hc => h58 (by rw [← hc]; exact List.mem_cons_self c rest))]
    rw [if_neg (fun hc => h93 (by rw [← hc]; exact List.mem_cons_self c rest))]
    exact ih (fun hm => h58 (List.mem_cons_of_mem c hm))
      (fun hm => h93 (List.mem_cons_of_mem c hm))

theorem stripPort_no_colon (host : List Nat) (h : 58 ∉ host) : stripPort host = host := by
  unfold stripPort
  rw [stripPortRev_no58 host.reverse (fun hm => h (List.mem_reverse.mp hm))]

theorem stripPort_appended (host port : List Nat)
    (hh : 58 ∉ host) (hp1 : 58 ∉ port) (hp2 : 93 ∉ port) :
    stripPort (host ++ 58 :: port) = host := by
  unfold stripPort
  have hrev : (host ++ 58 :: port).reverse = port.reverse ++ 58 :: host.reverse := by
    rw [List.reverse_append, List.reverse_cons, List.append_assoc, List.singleton_append]
  rw [hrev, stripPortRev_finds port.reverse host.reverse
    (fun hm => hp1 (List.mem_reverse.mp hm)) (fun hm => hp2 (List.mem_reverse.mp hm))]
  exact List.reverse_reverse host

/-- C5: for every host and configured base-domain list: if, after port
stripping and lower-casing, the host is `p ++ "." ++ D` for some configured
base `D` (normalised as the code does) with `p` a non-empty single label
(no dot), `ExtractSubdomain` returns `p`; if no configured base yields such
a single-label prefix (multi-label prefixes, bare-domain matches and
non-matches only), it returns the empty string; and lower/upper case and a
port suffix never affect the result. -/
theorem extract_subdomain_spec (host : List Nat) (ds : List (List Nat)) :
    (∀ D p, D ∈ ds → normalizeDomain D ≠ [] →
       lowerStr (stripPort host) = p ++ 46 :: normalizeDomain D →
       p ≠ [] → 46 ∉ p → ExtractSubdomain host ds = p) ∧
    (ds ≠ [] →
      (∀ d ∈ ds, ∀ q, lowerStr (stripPort host) = q ++ 46 :: normalizeDomain d →
        q = [] ∨ 46 ∈ q) →
      ExtractSubdomain host ds = []) ∧
    ExtractSubdomain (lowerStr host) ds = ExtractSubdomain host ds ∧
    (∀ port, 58 ∉ host → 58 ∉ port → 93 ∉ port →
      ExtractSubdomain (host ++ 58 :: port) ds = ExtractSubdomain host ds) := by
  refine ⟨?_, ?_, ?_, ?_⟩
  · intro D p hD hnd hmatch hp hdot
    have hds : ds ≠ [] := fun h => by
      rw [h] at hD
      cases hD
    unfold ExtractSubdomain
    rw [if_neg hds]
    exact extractLoop_finds (lowerStr (stripPort host)) D p ds hD hnd hmatch hp hdot
  · intro hds hnone
    unfold ExtractSubdomain
    rw [if_neg hds]
    refine extractLoop_empty _ ds fun d hd => ?_
    rcases hx : subdomainFor (lowerStr (stripPort host)) d with _ | q
    · rfl
    · exfalso
      have hc := (subdomainFor_eq_some _ d q).mp hx
      rcases hnone d hd q hc.2.2.2 with hq | hq
      · exact hc.2.1 hq
      · exact hc.2.2.1 hq
  · simp only [ExtractSubdomain]
    rw [stripPort_map_lower, lowerStr_idem]
  · intro port hh hp1 hp2
    simp only [ExtractSubdomain]
    rw [stripPort_appended host port hh hp1 hp2, stripPort_no_colon host hh]

/-- C5 witness: the spec's own examples.
`ExtractSubdomain "Openai.Localhost:8080" ["LOCALHOST"] = "openai"` and
`ExtractSubdomain "a.b.example.com" ["example.com"] = ""`. -/
theorem extract_subdomain_spec_witness :
    ExtractSubdomain (strL "Openai.Localhost:8080") [strL "LOCALHOST"] = strL "openai" ∧
    ExtractSubdomain (strL "a.b.example.com") [strL "example.com"] = [] := by
  constructor
  · exact (extract_subdomain_spec (strL "Openai.Localhost:8080") [strL "LOCALHOST"]).1
      (strL "LOCALHOST") (strL "openai") (by decide) (by decide) (by decide)
      (by decide) (by decide)
  · refine (extract_subdomain_spec (strL "a.b.example.com") [strL "example.com"]).2.1
      (by decide) ?_
    intro d hd q hq
    have hd' : d = strL "example.com" := List.mem_singleton.mp hd
    subst hd'
    right
    have hq' : strL "a.b.example.com" = q ++ 46 :: strL "example.com" := by
      rw [show lowerStr (stripPort (strL "a.b.example.com")) = strL "a.b.example.com"
            from by decide,
          show normalizeDomain (strL "example.com") = strL "example.com" from by decide] at hq
      exact hq
    have hlen : q.length = 3 := by
      have hl := congrArg List.length hq'
      rw [List.length_append, List.length_cons,
        show (strL "a.b.example.com").length = 15 from by decide,
        show (strL "example.com").length = 11 from by decide] at hl
      omega
    have hqval : q = (strL "a.b.example.com").take 3 := by
      calc q = (q ++ 46 :: strL "example.com").take q.length := (List.take_left _ _).symm
        _ = (strL "a.b.example.com").take q.length := by rw [← hq']
        _ = (strL "a.b.example.com").take 3 := by rw [hlen]
    rw [hqval]
    decide

/-- C8 counterexample: on both routing failures the handler returns before
`logEntry` is created, so no record (with or without an error) is ever
recorded, contradicting the claim that a record with a non-empty error is. -/
theorem routing_no_record_counterexample :
    serveRouting (strL "localhost") [strL "localhost"] []
      = .errorResp 400 (strL "invalid host: missing subdomain") [] ∧
    savedOf (serveRouting (strL "localhost") [strL "localhost"] []) = [] ∧
    serveRouting (strL "x.localhost") [strL "localhost"] []
      = .errorResp 502 (strL "unknown upstream: x") [] ∧
    savedOf (serveRouting (strL "x.localhost") [strL "localhost"] []) = [] := by
  refine ⟨by decide, by decide, by decide, by decide⟩

/-- C8 (amended): a host with no resolvable subdomain yields status 400
with message `"invalid host: missing subdomain"`; a resolved name with no
configured upstream yields 502 with `"unknown upstream: <name>"`; in both
routing-failure cases no log record is recorded (the handler returns
before the record is created). -/
theorem routing_error_shape (host : List Nat) (ds : List (List Nat))
    (ups : List (List Nat × Upstream)) :
    (ExtractSubdomain host ds = [] →
      serveRouting host ds ups
        = .errorResp 400 (strL "invalid host: missing subdomain") []) ∧
    (ExtractSubdomain host ds ≠ [] → getUpstream ups (ExtractSubdomain host ds) = none →
      serveRouting host ds ups
        = .errorResp 502 (strL "unknown upstream: " ++ ExtractSubdomain host ds) []) := by
  constructor
  · intro h
    simp [serveRouting, h]
  · intro h1 h2
    simp [serveRouting, h1, h2]

/-- C8 witness: both branches of the amended claim at concrete inputs. -/
theorem routing_error_shape_witness :
    serveRouting (strL "a.b.localhost") [strL "localhost"] []
      = .errorResp 400 (strL "invalid host: missing subdomain") [] ∧
    serveRouting (strL "gemini.localhost") [strL "localhost"]
        [(strL "openai", ⟨strL "https://example.test", 120⟩)]
      = .errorResp 502 (strL "unknown upstream: " ++ strL "gemini") [] := by
  constructor
  · exact (routing_error_shape (strL "a.b.localhost") [strL "localhost"] []).1 (by decide)
  · exact (routing_error_shape (strL "gemini.localhost") [strL "localhost"]
      [(strL "openai", ⟨strL "https://example.test", 120⟩)]).2 (by decide) (by decide)

theorem captureWrite_total (c : Capture) (p : List Nat) :
    (captureWrite c p).total = c.total + p.length := by
  dsimp only [captureWrite, captureWriteRet]
  split_ifs <;> rfl

theorem captureWriteAll_total (ws : List (List Nat)) (c : Capture) :
    (captureWriteAll c ws).total = c.total + sumLen ws := by
  induction ws generalizing c with
  | nil =>
    simp [captureWriteAll, sumLen]
  | cons p rest ih =>
    show (captureWriteAll (captureWrite c p) rest).total = c.total + sumLen (p :: rest)
    rw [ih, captureWrite_total, sumLen]
    ring

theorem copyChunks_count (chunks : List (List Nat)) (cap : Capture) :
    (copyChunks chunks cap).1 = sumLen chunks := by
  induction chunks generalizing cap with
  | nil => rfl
  | cons c rest ih =>
    show (c.length : Int) + (copyChunks rest (captureWrite cap c)).1 = sumLen (c :: rest)
    rw [ih, sumLen]

/-- C9 (amended): the recorded body sizes are the capture totals: the
request size is the total byte count the request capture observed and the
response size is the total byte count copied from the upstream — the raw
transferred bytes (not decompressed), with no upper bound from the capture
cap. -/
theorem body_size_is_capture_total (reqWrites respChunks : List (List Nat))
    (maxReq maxResp : Int) (bodyForReq bodyForResp : List Nat → List Nat × Bool)
    (now start : Int) (e : SizeRec) :
    (finalizeAndSaveLog bodyForReq bodyForResp
        (some (captureWriteAll (newLimitedCapture maxReq) reqWrites))
        (some (copyChunks respChunks (newLimitedCapture maxResp)).2) now start
        { e with responseBodySize := (copyChunks respChunks (newLimitedCapture maxResp)).1 }
      ).requestBodySize = sumLen reqWrites ∧
    (finalizeAndSaveLog bodyForReq bodyForResp
        (some (captureWriteAll (newLimitedCapture maxReq) reqWrites))
        (some (copyChunks respChunks (newLimitedCapture maxResp)).2) now start
        { e with responseBodySize := (copyChunks respChunks (newLimitedCapture maxResp)).1 }
      ).responseBodySize = sumLen respChunks := by
  constructor
  · show (captureWriteAll (newLimitedCapture maxReq) reqWrites).total = sumLen reqWrites
    rw [captureWriteAll_total]
    simp [newLimitedCapture]
  · show (copyChunks respChunks (newLimitedCapture maxResp)).1 = sumLen respChunks
    exact copyChunks_count respChunks (newLimitedCapture maxResp)

/-- C9 counterexample: with request capture cap 4 and a 10-byte request
body, the finalized `request_body_size` is 10, which exceeds the cap — the
recorded size is not bounded by the configured capture cap, and does not
equal the (4-byte) captured byte count. -/
theorem body_size_not_bounded_counterexample :
    (finalizeAndSaveLog (fun b => (b, false)) (fun b => (b, false))
        (some (captureWriteAll (newLimitedCapture 4) [[1, 2, 3, 4, 5, 6, 7, 8, 9, 10]]))
        (some (newLimitedCapture 4)) 0 0 ⟨0, 0, [], [], false, 0⟩).requestBodySize = 10 ∧
    ((captureWriteAll (newLimitedCapture 4) [[1, 2, 3, 4, 5, 6, 7, 8, 9, 10]]).buf.length = 4) ∧
    ¬ (finalizeAndSaveLog (fun b => (b, false)) (fun b => (b, false))
        (some (captureWriteAll (newLimitedCapture 4) [[1, 2, 3, 4, 5, 6, 7, 8, 9, 10]]))
        (some (newLimitedCapture 4)) 0 0 ⟨0, 0, [], [], false, 0⟩).requestBodySize ≤ 4 := by
  refine ⟨by decide, by decide, by decide⟩

/-- C1: `GarbageCollect(liveRefs, minAge)` never deletes temporary files
(`.tmp-` prefix), files whose name is not a 64-character hex digest, the
file named by the parsed hex of any ref appearing in `liveRefs`, or files
whose modification time is within `minAge` of now; every other file is
deleted. -/
theorem gc_safety (files : List BlobFile) (refs : List (List Nat)) (minAge now : Int) :
    (∀ f ∈ files, startsWithL (strL ".tmp-") f.name = true →
      f ∈ (garbageCollect files refs minAge now).1) ∧
    (∀ f ∈ files, f.name.length ≠ 64 → f ∈ (garbageCollect files refs minAge now).1) ∧
    (∀ f ∈ files, f.name.all isHexDigitGo = false →
      f ∈ (garbageCollect files refs minAge now).1) ∧
    (∀ f ∈ files, ∀ r ∈ refs, parseBlobRef r = some f.name →
      f ∈ (garbageCollect files refs minAge now).1) ∧
    (∀ f ∈ files, 0 < minAge → now - minAge < f.mtime →
      f ∈ (garbageCollect files refs minAge now).1) ∧
    (∀ f ∈ files, startsWithL (strL ".tmp-") f.name = false → f.name.length = 64 →
      f.name.all isHexDigitGo = true → (∀ r ∈ refs, parseBlobRef r ≠ some f.name) →
      (0 < minAge → f.mtime ≤ now - minAge) →
      f ∉ (garbageCollect files refs minAge now).1) := by
  simp only [garbageCollect]
  refine ⟨?_, ?_, ?_, ?_, ?_, ?_⟩
  · intro f hf h
    exact List.mem_filter.mpr ⟨hf, by simp [gcKeep, h]⟩
  · intro f hf h
    exact List.mem_filter.mpr ⟨hf, by simp [gcKeep, h]⟩
  · intro f hf h
    exact List.mem_filter.mpr ⟨hf, by simp [gcKeep, h]⟩
  · intro f hf r hr h
    have hmem : f.name ∈ refs.filterMap parseBlobRef :=
      List.mem_filterMap.mpr ⟨r, hr, h⟩
    have hcont : (refs.filterMap parseBlobRef).contains f.name = true :=
      List.elem_iff.mpr hmem
    refine List.mem_filter.mpr ⟨hf, ?_⟩
    simp only [gcKeep, Bool.or_eq_true]
    exact Or.inl (Or.inr hcont)
  · intro f hf hm h
    refine List.mem_filter.mpr ⟨hf, ?_⟩
    simp only [gcKeep, if_pos hm, Bool.or_eq_true]
    right
    simp [h]
  · intro f hf h1 h2 h3 h4 h5 hmem
    have hkeep := (List.mem_filter.mp hmem).2
    simp only [gcKeep, Bool.or_eq_true, h1, h2, h3] at hkeep
    rcases hkeep with ((((hk | hk) | hk) | hk) | hk)
    · cases hk
    · simp at hk
    · simp at hk
    · have := List.elem_iff.mp hk
      obtain ⟨r, hr, hp⟩ := List.mem_filterMap.mp this
      exact h4 r hr hp
    · by_cases hm : 0 < minAge
      · rw [if_pos hm] at hk
        simp only [decide_eq_true_eq] at hk
        have := h5 hm
        omega
      · rw [if_neg hm] at hk
        cases hk

/-- C1 witness: a referenced object and a temporary file survive a GC at
`minAge = 1`, while an old unreferenced object is deleted. -/
theorem gc_safety_witness :
    (⟨List.replicate 64 97, 0⟩ : BlobFile) ∈
      (garbageCollect
        [⟨List.replicate 64 97, 0⟩, ⟨List.replicate 64 98, 0⟩, ⟨strL ".tmp-x", 0⟩]
        [strL "sha256:" ++ List.replicate 64 97] 1 100).1 ∧
    (⟨strL ".tmp-x", 0⟩ : BlobFile) ∈
      (garbageCollect
        [⟨List.replicate 64 97, 0⟩, ⟨List.replicate 64 98, 0⟩, ⟨strL ".tmp-x", 0⟩]
        [strL "sha256:" ++ List.replicate 64 97] 1 100).1 ∧
    (⟨List.replicate 64 98, 0⟩ : BlobFile) ∉
      (garbageCollect
        [⟨List.replicate 64 97, 0⟩, ⟨List.replicate 64 98, 0⟩, ⟨strL ".tmp-x", 0⟩]
        [strL "sha256:" ++ List.replicate 64 97] 1 100).1 := by
  have h := gc_safety
    [⟨List.replicate 64 97, 0⟩, ⟨List.replicate 64 98, 0⟩, ⟨strL ".tmp-x", 0⟩]
    [strL "sha256:" ++ List.replicate 64 97] 1 100
  refine ⟨?_, ?_, ?_⟩
  · exact h.2.2.2.1 ⟨List.replicate 64 97, 0⟩ (by decide)
      (strL "sha256:" ++ List.replicate 64 97) (by decide) (by decide)
  · exact h.1 ⟨strL ".tmp-x", 0⟩ (by decide) (by decide)
  · exact h.2.2.2.2.2 ⟨List.replicate 64 98, 0⟩ (by decide) (by decide) (by decide)
      (by decide) (by decide) (by decide)

theorem blobPut_fst (fs : BlobFs) (data : List Nat) :
    (blobPut fs data).1 = strL "sha256:" ++ digestHex data := by
  simp only [blobPut]
  rcases h : fsLookup fs (pathFor ((parseBlobRef (blobRefOf data)).getD [])) with _ | v <;>
    simp [h, blobRefOf]

theorem w32_lt (x : Nat) : w32 x < 4294967296 := Nat.mod_lt x (by norm_num)

theorem processBlock_length (hs block : List Nat) : (processBlock hs block).length = 8 := rfl

theorem processBlock_mem_lt (hs block : List Nat) :
    ∀ x ∈ processBlock hs block, x < 4294967296 := by
  intro x hx
  simp only [processBlock, List.mem_cons, List.not_mem_nil, or_false] at hx
  rcases hx with h | h | h | h | h | h | h | h <;> (rw [h]; exact w32_lt _)

theorem foldl_processBlock_spec (blocks : List (List Nat)) (hs : List Nat)
    (h : hs.length = 8 ∧ ∀ x ∈ hs, x < 4294967296) :
    (blocks.foldl processBlock hs).length = 8 ∧
      ∀ x ∈ blocks.foldl processBlock hs, x < 4294967296 := by
  induction blocks generalizing hs with
  | nil => exact h
  | cons b bs ih =>
    exact ih (processBlock hs b) ⟨processBlock_length hs b, processBlock_mem_lt hs b⟩

theorem sha256Words_spec (msg : List Nat) :
    (sha256Words msg).length = 8 ∧ ∀ x ∈ sha256Words msg, x < 4294967296 := by
  unfold sha256Words
  exact foldl_processBlock_spec (chunks64 (sha256Pad msg)) sha256H0 ⟨rfl, by decide⟩

theorem natToHexBE_length (n : Nat) : ∀ x : Nat, (natToHexBE n x).length = n := by
  induction n with
  | zero => intro x; rfl
  | succ n ih => intro x; simp [natToHexBE, ih]

theorem hexDigitByte_range (m : Nat) (h : m < 16) :
    (48 ≤ hexDigitByte m ∧ hexDigitByte m ≤ 57) ∨
      (97 ≤ hexDigitByte m ∧ hexDigitByte m ≤ 102) := by
  unfold hexDigitByte
  split_ifs <;> omega

theorem natToHexBE_mem_range (n : Nat) :
    ∀ x c : Nat, c ∈ natToHexBE n x →
      (48 ≤ c ∧ c ≤ 57) ∨ (97 ≤ c ∧ c ≤ 102) := by
  induction n with
  | zero =>
    intro x c hc
    cases hc
  | succ n ih =>
    intro x c hc
    rw [natToHexBE] at hc
    rcases List.mem_append.mp hc with h | h
    · exact ih (x / 16) c h
    · rw [List.mem_singleton] at h
      rw [h]
      exact hexDigitByte_range (x % 16) (Nat.mod_lt x (by norm_num))

theorem digestHex_length (msg : List Nat) : (digestHex msg).length = 64 := by
  unfold digestHex
  rw [List.length_flatten]
  have hmap : ((sha256Words msg).map (natToHexBE 8)).map List.length
      = (sha256Words msg).map (fun _ => 8) := by
    rw [List.map_map]
    exact List.map_congr_left fun w _ => natToHexBE_length 8 w
  rw [hmap, List.map_const', (sha256Words_spec msg).1, List.sum_replicate]
  simp

theorem digestHex_mem_range (msg : List Nat) :
    ∀ c ∈ digestHex msg, (48 ≤ c ∧ c ≤ 57) ∨ (97 ≤ c ∧ c ≤ 102) := by
  intro c hc
  unfold digestHex at hc
  obtain ⟨l, hl, hc2⟩ := List.mem_flatten.mp hc
  obtain ⟨w, _, rfl⟩ := List.mem_map.mp hl
  exact natToHexBE_mem_range 8 w c hc2

theorem blobPut_idem (fs : BlobFs) (data : List Nat) :
    blobPut (blobPut fs data).2 data = ((blobPut fs data).1, (blobPut fs data).2) := by
  simp only [blobPut]
  rcases h : fsLookup fs (pathFor ((parseBlobRef (blobRefOf data)).getD [])) with _ | v
  · simp only [h]
    have h2 : fsLookup ⟨(pathFor ((parseBlobRef (blobRefOf data)).getD []), data) :: fs.entries⟩
        (pathFor ((parseBlobRef (blobRefOf data)).getD [])) = some data := by
      simp [fsLookup, List.find?]
    simp [h2]
  · simp [h]

theorem blobPut_stores (fs : BlobFs) (data : List Nat)
    (h : fsLookup fs (pathFor ((parseBlobRef (blobRefOf data)).getD [])) = none) :
    fsLookup (blobPut fs data).2 (pathFor ((parseBlobRef (blobRefOf data)).getD []))
      = some data := by
  simp only [blobPut, h]
  simp [fsLookup, List.find?]

/-- C3 (amended): the ref returned by `Put` is `"sha256:"` followed by the
64-character lower-case hex SHA-256 digest of the bytes; equal bytes yield
equal refs (independently of the store state); a second `Put` of identical
content returns the same ref and leaves the stored content unchanged; and
a first `Put` stores exactly the put bytes.  (The converse — distinct
bytes always yield distinct refs — is dropped: a hash cannot be injective
on all byte sequences; see the counterexample.) -/
theorem blob_put_content_address (fs fs2 : BlobFs) (b1 b2 data : List Nat) :
    (blobPut fs data).1 = strL "sha256:" ++ digestHex data ∧
    (digestHex data).length = 64 ∧
    (∀ c ∈ digestHex data, (48 ≤ c ∧ c ≤ 57) ∨ (97 ≤ c ∧ c ≤ 102)) ∧
    (b1 = b2 → (blobPut fs b1).1 = (blobPut fs2 b2).1) ∧
    blobPut (blobPut fs data).2 data = ((blobPut fs data).1, (blobPut fs data).2) ∧
    (fsLookup fs (pathFor ((parseBlobRef (blobRefOf data)).getD [])) = none →
      fsLookup (blobPut fs data).2 (pathFor ((parseBlobRef (blobRefOf data)).getD []))
        = some data) := by
  refine ⟨blobPut_fst fs data, digestHex_length data, digestHex_mem_range data, ?_,
    blobPut_idem fs data, blobPut_stores fs data⟩
  intro h
  rw [blobPut_fst, blobPut_fst, h]

/-- C3 witness: put of a one-byte payload into an empty store: the ref has
the stated shape, equal content gives an equal ref, and the stored bytes
are retrievable. -/
theorem blob_put_content_address_witness :
    (blobPut ⟨[]⟩ [0]).1 = strL "sha256:" ++ digestHex [0] ∧
    (blobPut ⟨[]⟩ [0]).1 = (blobPut ⟨[]⟩ [0]).1 ∧
    fsLookup (blobPut ⟨[]⟩ [0]).2 (pathFor ((parseBlobRef (blobRefOf [0])).getD []))
      = some [0] := by
  have h := blob_put_content_address ⟨[]⟩ ⟨[]⟩ [0] [0] [0]
  exact ⟨h.1, h.2.2.2.1 rfl, h.2.2.2.2.2 rfl⟩

theorem natToBytesBE_length (n : Nat) : ∀ x : Nat, (natToBytesBE n x).length = n := by
  induction n with
  | zero => intro x; rfl
  | succ n ih => intro x; simp [natToBytesBE, ih]

theorem natToBytesBE_inj (n : Nat) : ∀ x y : Nat, x < 256 ^ n → y < 256 ^ n →
    natToBytesBE n x = natToBytesBE n y → x = y := by
  induction n with
  | zero =>
    intro x y hx hy _
    simp only [pow_zero, Nat.lt_one_iff] at hx hy
    omega
  | succ n ih =>
    intro x y hx hy h
    rw [natToBytesBE, natToBytesBE] at h
    have hlen : (natToBytesBE n (x / 256)).length = (natToBytesBE n (y / 256)).length := by
      rw [natToBytesBE_length, natToBytesBE_length]
    obtain ⟨h1, h2⟩ := List.append_inj h hlen
    rw [pow_succ] at hx hy
    have hx2 : x / 256 < 256 ^ n := by omega
    have hy2 : y / 256 < 256 ^ n := by omega
    have hdiv := ih (x / 256) (y / 256) hx2 hy2 h1
    have hmod : x % 256 = y % 256 := by
      injection h2
    omega

theorem wordsToNat_inj : ∀ l1 l2 : List Nat, (∀ w ∈ l1, w < 4294967296) →
    (∀ w ∈ l2, w < 4294967296) → l1.length = l2.length →
    wordsToNat l1 = wordsToNat l2 → l1 = l2 := by
  intro l1
  induction l1 with
  | nil =>
    intro l2 _ _ hlen _
    cases l2 with
    | nil => rfl
    | cons v vs => simp at hlen
  | cons w ws ih =>
    intro l2 h1 h2 hlen h
    cases l2 with
    | nil => simp at hlen
    | cons v vs =>
      rw [wordsToNat, wordsToNat] at h
      have hw : w < 4294967296 := h1 w (List.mem_cons_self w ws)
      have hv : v < 4294967296 := h2 v (List.mem_cons_self v vs)
      have hwv : w = v := by omega
      have htail : wordsToNat ws = wordsToNat vs := by omega
      have := ih vs (fun u hu => h1 u (List.mem_cons_of_mem w hu))
        (fun u hu => h2 u (List.mem_cons_of_mem v hu))
        (by simpa using hlen) htail
      rw [hwv, this]

theorem wordsToNat_lt : ∀ l : List Nat, (∀ w ∈ l, w < 4294967296) →
    wordsToNat l < 4294967296 ^ l.length := by
  intro l
  induction l with
  | nil =>
    intro _
    rw [wordsToNat]
    norm_num
  | cons w ws ih =>
    intro h
    have hw : w < 4294967296 := h w (List.mem_cons_self w ws)
    have htail := ih fun u hu => h u (List.mem_cons_of_mem w hu)
    rw [wordsToNat, List.length_cons, pow_succ]
    have : 4294967296 * wordsToNat ws + 4294967296 ≤ 4294967296 ^ ws.length * 4294967296 := by
      have := Nat.mul_le_mul_left 4294967296 htail
      omega
    omega

/-- C3 counterexample: the claimed equivalence `Put(b1) = Put(b2) iff
b1 = b2` is false: by a counting argument over the 2^256-element digest
space there exist two distinct (33-byte) payloads whose refs collide. -/
theorem blob_ref_collision_counterexample :
    ∃ b1 b2 : List Nat, b1 ≠ b2 ∧ (blobPut ⟨[]⟩ b1).1 = (blobPut ⟨[]⟩ b2).1 := by
  have hcard : Fintype.card (Fin (2 ^ 256)) < Fintype.card (Fin (2 ^ 256 + 1)):= by
    simp only [Fintype.card_fin]
    omega
  obtain ⟨x, y, hxy, hfxy⟩ := Fintype.exists_ne_map_eq_of_card_lt shaCollisionMap hcard
  refine ⟨encode33 x.val, encode33 y.val, ?_, ?_⟩
  · intro h
    apply hxy
    have hbound : (2 : Nat) ^ 256 + 1 ≤ 256 ^ 33 := by norm_num
    have hx : x.val < 256 ^ 33 := lt_of_lt_of_le x.isLt hbound
    have hy : y.val < 256 ^ 33 := lt_of_lt_of_le y.isLt hbound
    exact Fin.ext (natToBytesBE_inj 33 x.val y.val hx hy h)
  · have hbx := sha256Words_spec (encode33 x.val)
    have hby := sha256Words_spec (encode33 y.val)
    have hvx : wordsToNat (sha256Words (encode33 x.val)) < 2 ^ 256 := by
      have hlt := wordsToNat_lt _ hbx.2
      rw [hbx.1] at hlt
      calc wordsToNat (sha256Words (encode33 x.val)) < 4294967296 ^ 8 := hlt
        _ = 2 ^ 256 := by norm_num
    have hvy : wordsToNat (sha256Words (encode33 y.val)) < 2 ^ 256 := by
      have hlt := wordsToNat_lt _ hby.2
      rw [hby.1] at hlt
      calc wordsToNat (sha256Words (encode33 y.val)) < 4294967296 ^ 8 := hlt
        _ = 2 ^ 256 := by norm_num
    have hval := congrArg Fin.val hfxy
    simp only [shaCollisionMap] at hval
    rw [Nat.mod_eq_of_lt hvx, Nat.mod_eq_of_lt hvy] at hval
    have hwords := wordsToNat_inj _ _ hbx.2 hby.2 (by rw [hbx.1, hby.1]) hval
    rw [blobPut_fst, blobPut_fst]
    unfold digestHex
    rw [hwords]

end PrismCat
